import Mathlib

/-!
Shallow embedding of the `argparse_gen` package (files
`src/argparse_gen/param_def.py`, `src/argparse_gen/argparse_gen.py`,
`src/argparse_gen/utils.py`).

Python strings are modelled as `List Char` (`Str`), Python dicts with
insertion-order semantics as association lists with unique keys, and the
pieces of Python runtime data the code inspects (parameter records,
annotations, literal values, enum classes) as small inductive types.
Fallible code (`str_as_arg`, which can raise) returns `Except`.
-/

abbrev Str := List Char

/-- Python whitespace as used by `str.strip` and the regex class `\s`
(ASCII portion, which is all that the repository defaults exercise). -/
def isPySpace (c : Char) : Bool :=
  c == ' ' || c == '\t' || c == '\n' || c == '\r' ||
    c == Char.ofNat 11 || c == Char.ofNat 12

/-- The regex class `\w` (ASCII portion). -/
def isWordChar (c : Char) : Bool :=
  c.isAlphanum || c == '_'

/-- `str.strip()`. -/
def pyStrip (s : Str) : Str :=
  ((s.dropWhile isPySpace).reverse.dropWhile isPySpace).reverse

/-- `str.split("\n")`: splitting on every newline, keeping empty pieces. -/
def splitOnNl : Str → List Str
  | [] => [[]]
  | c :: t =>
    if c = '\n' then [] :: splitOnNl t
    else
      match splitOnNl t with
      | h :: r => (c :: h) :: r
      | [] => [[c]]

/-! ### Python dicts as insertion-ordered association lists

`dictSet` is the Python statement `d[k] = v`: an existing key keeps its position and
gets the new value, a new key is appended at the end.  Python dict keys are
unique, which the operations below preserve. -/

def dictSet : List (Str × Str) → Str → Str → List (Str × Str)
  | [], k, v => [(k, v)]
  | (k', v') :: t, k, v =>
    if k' = k then (k, v) :: t else (k', v') :: dictSet t k v

def dictGet : List (Str × Str) → Str → Option Str
  | [], _ => none
  | (k', v) :: t, k => if k' = k then some v else dictGet t k

def dictKeys : List (Str × Str) → List Str
  | [] => []
  | e :: t => e.1 :: dictKeys t

/-- The Python call `a.update(b)`. -/
def dictUpdate (a b : List (Str × Str)) : List (Str × Str) :=
  b.foldl (fun acc e => dictSet acc e.1 e.2) a

/-! ### Data model of the inspected callable -/

/-- `inspect.Parameter.kind`. -/
inductive ParamKind where
  | positionalOnly
  | positionalOrKeyword
  | keywordOnly
  | varPositional
  | varKeyword
deriving DecidableEq, Repr

/-- An `enum.Enum` subclass: its class name and its member names in
definition order (iterating a Python enum yields definition order). -/
structure PyEnum where
  typeName : Str
  memberNames : List Str
deriving DecidableEq, Repr

/-- A Python runtime type, as far as `_handle_annotation` distinguishes
them (only `bool` is treated specially; everything else is carried
through by name). -/
inductive PyType where
  | bool
  | int
  | str
  | noneType
  | custom (nm : Str)
deriving DecidableEq, Repr

/-- Python values the package manipulates: literal values, defaults, enum
members, and the `EnumValue` wrapper of the package itself (`utils.EnumValue`). -/
inductive Value where
  | bool (b : Bool)
  | int (n : Int)
  | str (s : Str)
  | noneV
  | enumMember (typeName memberName : Str)
  | enumWrapped (v : Value)
deriving DecidableEq, Repr

/-- `type(v)` as far as the literal-choice branch needs it. -/
def pyTypeOf : Value → PyType
  | .bool _ => .bool
  | .int _ => .int
  | .str _ => .str
  | .noneV => .noneType
  | .enumMember tn _ => .custom tn
  | .enumWrapped _ => .custom ("EnumValue".data)

/-- The declared annotation of a parameter, split the way
`ParamDef._handle_annotation` tests it: a `typing.Literal[...]` alias, an
`enum.Enum` subclass, a plain class, the absent-annotation sentinel
`inspect.Parameter.empty` (which is itself the class `_empty`, so it
satisfies `isinstance(annotation, type)`), or any non-class annotation
(a string, a generic alias, ...), which the chain of `elif`s falls
through. -/
inductive PyAnn where
  | empty
  | other
  | literalAlias (vals : List Value)
  | enumClass (e : PyEnum)
  | plainType (t : PyType)
deriving DecidableEq, Repr

/-- One `inspect.Parameter`: its name, kind, default (`none` models the
`inspect.Parameter.empty` sentinel) and annotation.  Parameter names in a
Python signature are unique identifiers. -/
structure Param where
  name : Str
  kind : ParamKind
  default : Option Value
  ann : PyAnn
deriving DecidableEq, Repr

/-- `ParamDef` object state after `set_names` ran: the wrapped parameter,
the flag name list, and the help string found for it (`None` modelled as
`none`). -/
structure ParamDef where
  param : Param
  names : List Str
  help_str : Option Str
deriving DecidableEq, Repr

/-- The coercion value stored under the dict key `"type"`: either a plain
Python type or the `utils.EnumType` wrapper (lookup-by-name over an enum). -/
inductive TypeV where
  | py (t : PyType)
  | enumLookup (e : PyEnum)
deriving DecidableEq, Repr

/-- `EnumType.__name__` (`utils.py` lines 18-23): the rendering used for
the enum lookup coercion. -/
def TypeV.pyName : TypeV → Str
  | .py .bool => "bool".data
  | .py .int => "int".data
  | .py .str => "str".data
  | .py .noneType => "NoneType".data
  | .py (.custom nm) => nm
  | .enumLookup e => ("lambda value: getattr(".data) ++ e.typeName ++ (", value)".data)

/-- `repr(v)` for the values above.  `EnumValue.__repr__` (`utils.py`
lines 34-38) renders the wrapped enum member as
`{class name}.{member name}`; wrapping a non-enum value would crash at
render time (`AttributeError`), which no claim exercises. -/
def reprValue : Value → Str
  | .bool true => "True".data
  | .bool false => "False".data
  | .int n => (toString n).data
  | .str s => '\'' :: s ++ ['\'']
  | .noneV => "None".data
  | .enumMember tn mn => '<' :: tn ++ '.' :: mn ++ ['>']
  | .enumWrapped (.enumMember tn mn) => tn ++ '.' :: mn
  | .enumWrapped _ => "AttributeError".data

/-- The dict built by `ParamDef.as_dict`, one optional field per possible
key, in insertion order: `names`, `nargs`, `default`, `action`/`type`,
`choices`, `help`.  The field `required` is present in the model to state
claims about it: the source line `result["required"]: required`
(`param_def.py` line 89) is a bare annotation statement, not an
assignment, so the key is never actually set. -/
structure ArgDict where
  names : List Str
  nargs : Option Str
  required : Option Bool
  default : Option Value
  action : Option Str
  type : Option TypeV
  choices : Option (List Value)
  help : Str
deriving DecidableEq, Repr

def ArgDict.init (names : List Str) : ArgDict :=
  ⟨names, none, none, none, none, none, none, []⟩

/-- `ParamDef._handle_annotation` (`param_def.py` lines 46-77).  The
absent-annotation sentinel `inspect.Parameter.empty` is the class
`_empty`, so it reaches the `isinstance(annotation, type)` branch and is
recorded as the coercion type named `_empty`; only non-class annotations
fall through with no type. -/
def handleAnn (p : Param) (result : ArgDict) : ArgDict :=
  let step :
      Option TypeV × Option (List Value) × ArgDict :=
    match p.ann with
    | .literalAlias vals =>
      (match (vals.map pyTypeOf).dedup with
       | [t] => some (.py t)
       | _ => none,
       some vals, result)
    | .enumClass e =>
      (some (.enumLookup e),
       some (e.memberNames.map fun m => Value.enumWrapped (.enumMember e.typeName m)),
       match result.default with
       | some d => { result with default := some (.enumWrapped d) }
       | none => result)
    | .plainType t => (some (.py t), none, result)
    | .empty => (some (.py (.custom ("_empty".data))), none, result)
    | .other => (none, none, result)
  let r1 :=
    match step.1 with
    | some (.py .bool) =>
      { step.2.2 with
        action := some (if p.default = some (.bool true)
          then ("store_false".data) else ("store_true".data)) }
    | some t => { step.2.2 with type := some t }
    | none => step.2.2
  match step.2.1 with
  | some cs => { r1 with choices := some cs }
  | none => r1

/-- `ParamDef.as_dict` (`param_def.py` lines 79-94).  Note the modelled
source bug: line 89 reads `result["required"]: required`, an annotation
statement that does not set the key, so `required` stays absent. -/
def asDict (pd : ParamDef) : ArgDict :=
  let required := pd.param.default.isNone
  let r0 := ArgDict.init pd.names
  let r1 :=
    if pd.param.kind = ParamKind.positionalOnly then
      if required = false then { r0 with nargs := some ['?'] } else r0
    else
      r0
  let r2 := if required = false then { r1 with default := pd.param.default } else r1
  let r3 := handleAnn pd.param r2
  { r3 with
    help := match pd.help_str with
      | none => []
      | some s => if s = [] then [] else s }

/-! ### Docstring parsing (`ArgparseGen._get_help_dict`) -/

/-- The default parameter marker regex `^:param\s+(?P<name>\w+):\s*`
applied with `re.search` to a stripped line.  Since the pattern is
anchored at the string start, search is equivalent to a match at
position 0.  Returns the captured name and the rest of the line after the
whole match (`line[m.end() - m.start():]`, with `m.start() = 0`). -/
def paramMarker (line : Str) : Option (Str × Str) :=
  if (":param".data).isPrefixOf line then
    let rest1 := line.drop 6
    let ws := rest1.takeWhile isPySpace
    if ws = [] then none
    else
      let rest2 := rest1.drop ws.length
      let nm := rest2.takeWhile isWordChar
      if nm = [] then none
      else
        match rest2.drop nm.length with
        | ':' :: rest3 => some (nm, rest3.dropWhile isPySpace)
        | _ => none
  else none

/-- The mutable state of the line loop in `_get_help_dict`. -/
structure HelpState where
  result : List (Str × Str)
  currName : Str
  currHelp : Str
deriving DecidableEq, Repr

/-- `save_current` (`argparse_gen.py` lines 148-151): commits the buffer
into the result when both name and help are non-empty.  It does not
modify `curr_name` or `curr_help` (they are declared `nonlocal` but never
assigned). -/
def saveCurrent (st : HelpState) : List (Str × Str) :=
  if st.currName ≠ [] ∧ st.currHelp ≠ [] then
    dictSet st.result st.currName st.currHelp
  else st.result

/-- One iteration of the `for line in obj.__doc__.split("\n")` loop
(`argparse_gen.py` lines 159-168). -/
def helpLineStep (st : HelpState) (raw : Str) : HelpState :=
  if pyStrip raw = [] then
    { st with result := saveCurrent st }
  else
    match paramMarker (pyStrip raw) with
    | some (nm, rest) => ⟨saveCurrent st, nm, rest⟩
    | none =>
      if st.currName ≠ [] then
        { st with
          currHelp := st.currHelp ++
            (if st.currHelp.getLast? = some ' ' then [] else [' ']) ++ pyStrip raw }
      else st

/-- The whole line loop plus the final `save_current()` call, on a
docstring already known to be present and non-empty. -/
def runLines (s : Str) : List (Str × Str) :=
  saveCurrent ((splitOnNl s).foldl helpLineStep ⟨[], [], []⟩)

/-- The inspected callable, as far as `_get_help_dict` looks at it:
its `__doc__` (`none` models `None`), whether it is a class, and — for
classes — the `__doc__` of its `__init__` (`none` in the outer option models
the `AttributeError` branch where `__init__` is missing). -/
structure PyCallable where
  doc : Option Str
  isClass : Bool
  initDoc : Option (Option Str)
deriving DecidableEq, Repr

/-- `_get_help_dict` applied to a plain function such as a constructor:
the recursive call on `obj.__init__` hits only the docstring scan, never
the class branch. -/
def docHelp (d : Option Str) : List (Str × Str) :=
  match d with
  | none => []
  | some s => if s = [] then [] else runLines s

/-- `ArgparseGen._get_help_dict` (`argparse_gen.py` lines 144-179).
The guard `if not obj.__doc__: return result` fires before the class
branch, so a class with an absent or empty docstring returns `{}` without
consulting its constructor. -/
def getHelpDict (obj : PyCallable) : List (Str × Str) :=
  match obj.doc with
  | none => []
  | some s =>
    if s = [] then []
    else
      let result := runLines s
      if obj.isClass then
        match obj.initDoc with
        | none => result
        | some d => dictUpdate result (docHelp d)
      else result

/-! ### Line wrapping (`utils.str_as_arg`) -/

/-- Split on runs of whitespace, dropping empty pieces (what
the `textwrap` chunking does to single-space-separated text after
`replace_whitespace`). -/
def splitWs : Str → Str → List Str
  | [], acc => if acc = [] then [] else [acc.reverse]
  | c :: cs, acc =>
    if isPySpace c then
      if acc = [] then splitWs cs [] else acc.reverse :: splitWs cs []
    else splitWs cs (c :: acc)

/-- Greedy word filling at width `w`: words are joined with single
spaces, a word that does not fit starts a new line, and a word longer
than `w` is kept whole on its own line (`break_long_words=False`,
`break_on_hyphens=False`). -/
def greedyAux (w : Nat) : List Str → Str → List Str
  | [], cur => [cur]
  | word :: ws, cur =>
    if cur.length + 1 + word.length ≤ w then
      greedyAux w ws (cur ++ ' ' :: word)
    else
      cur :: greedyAux w ws word

/-- Model of `textwrap.wrap(text, w, break_long_words=False,
break_on_hyphens=False)` for single-space-separated text.  The width is
a Python integer; `_wrap_chunks` raises `ValueError` first thing when it
is not positive, before looking at the text. -/
def pyWrap (s : Str) (w : Int) : Except Str (List Str) :=
  if w ≤ 0 then .error ("invalid width (must be > 0)".data)
  else
    match splitWs s [] with
    | [] => .ok []
    | word :: ws => .ok (greedyAux w.toNat ws word)

def pySpaces (n : Nat) : Str := List.replicate n ' '

/-- The `"\n".join(...) + "\n    )"` assembly in `str_as_arg`
(`utils.py` lines 52-69): the first wrapped line carries
`{name}=(\n        {quote}{line}{quote}`, later lines
`        {quote} {line}{quote}`, and a 4-space-indented `)` closes. -/
def wrapJoin (name : Str) (q : Char) (ls : List Str) : Str :=
  (List.intercalate ['\n'] (ls.enum.map fun pr =>
    if pr.1 = 0 then
      name ++ '=' :: '(' :: '\n' :: pySpaces 8 ++ q :: pr.2 ++ [q]
    else
      pySpaces 8 ++ q :: ' ' :: pr.2 ++ [q])) ++ ("\n    )".data)

/-- `utils.str_as_arg` (`utils.py` lines 41-71).  Errors model the
`raise ValueError` in the function for a value that does not end with its own
first character, the `IndexError` that `value[0]` raises on an empty
value, and the `ValueError` that propagates out of `textwrap.wrap` when
the computed wrap width `max_width - lead_size - 4` (a Python integer,
negative for long keys at small widths) is not positive.  The hanging
indent `max(0, 4 - len(name))` is Nat subtraction, which clamps at 0
exactly like the source's `max`. -/
def strAsArg (name value : Str) (maxWidth : Nat) : Except Str Str :=
  let lead := name.length + 1
  if maxWidth < lead + value.length + 1 then
    match value with
    | [] => .error ("string index out of range".data)
    | q :: _ =>
      if value.getLast? = some q then
        let inner := (value.drop 1).dropLast
        let lead2 : Nat := lead + (4 - name.length)
        match pyWrap inner ((maxWidth : Int) - (lead2 : Int) - 4) with
        | .error e => .error e
        | .ok ls => .ok (wrapJoin name q ls)
      else .error ("non-repr string".data)
  else .ok (name ++ '=' :: value)

/-- Whether a rendered value is a quoted string in the sense the source
checks: non-empty, ending with the same (quote) character it starts
with. -/
def pyQuoted (v : Str) : Bool :=
  match v with
  | [] => false
  | q :: _ => v.getLast? == some q

def exceptErr {ε α : Type} : Except ε α → Bool
  | .error _ => true
  | .ok _ => false

/-! ### Flag naming (`ParamDef.set_names`, `ArgparseGen.as_list`) -/

/-- `ParamDef.set_names` (`param_def.py` lines 27-44): given the shared
set of claimed single characters (modelled as a list of one-character
strings, matching the Python `set` of one-character strings), returns
the flag list and the updated claimed set. -/
def setNames (claimed : List Str) (p : Param) : List Str × List Str :=
  if p.kind = ParamKind.positionalOnly then
    ([p.name], claimed)
  else if p.name.length = 1 then
    (['-' :: p.name], p.name :: claimed)
  else if p.name.take 1 ∈ claimed then
    (['-' :: '-' :: p.name], claimed)
  else
    (['-' :: p.name.take 1, '-' :: '-' :: p.name], p.name.take 1 :: claimed)

/-- The eligibility filter in `ArgparseGen.as_list` (`argparse_gen.py`
lines 191-198). -/
def isEligible (skipPrivate : Bool) (p : Param) : Bool :=
  !(skipPrivate && p.name.head? == some '_') &&
    (match p.kind with
     | .positionalOnly | .positionalOrKeyword | .keywordOnly => true
     | _ => false)

/-- Stable insertion of a parameter into a list sorted by ascending name
length: it goes after everything strictly shorter and before everything
of equal or greater length, which matches the stable ordering that the Python
`sorted(..., key=lambda pd: len(pd.param.name))` produces. -/
def insertByLen (p : Param) : List Param → List Param
  | [] => [p]
  | q :: qs =>
    if q.name.length < p.name.length then q :: insertByLen p qs
    else p :: q :: qs

/-- Stable sort by ascending name length. -/
def sortByLen : List Param → List Param
  | [] => []
  | p :: ps => insertByLen p (sortByLen ps)

/-- Processing the length-sorted parameters in order, threading the
shared claimed-character set through the successive `set_names` calls,
and recording the flags of each parameter keyed by its (unique) name. -/
def assignNames : List Param → List Str → List (Str × List Str)
  | [], _ => []
  | p :: ps, claimed =>
    (p.name, (setNames claimed p).1) :: assignNames ps (setNames claimed p).2

/-- The claimed set after processing a list of parameters. -/
def claimedAfter : List Param → List Str → List Str
  | [], s => s
  | p :: ps, s => claimedAfter ps (setNames s p).2

/-- The flags `assignNames` recorded for a given parameter name. -/
def lookupFlags (asn : List (Str × List Str)) (n : Str) : List Str :=
  match asn.find? (fun e => e.1 == n) with
  | some e => e.2
  | none => []

/-- `ArgparseGen.as_list` (`argparse_gen.py` lines 181-204): filter the
eligible parameters, run `set_names` over them in ascending name-length
order with one shared claimed set, and return the `ParamDef`s in the
original signature order carrying the flags assigned to them and the
help text found for them.  (The source mutates the `ParamDef` objects in
the sorted view of the same list; since names are unique in a signature,
keying the assignment by name is equivalent.) -/
def asList (skipPrivate : Bool) (params : List Param)
    (helps : List (Str × Str)) : List ParamDef :=
  (params.filter (isEligible skipPrivate)).map fun p =>
    ⟨p,
      lookupFlags
        (assignNames (sortByLen (params.filter (isEligible skipPrivate))) [])
        p.name,
      dictGet helps p.name⟩

/-! ### Concrete inputs used by evaluation and witness theorems -/

def okValue {ε : Type} : Except ε Str → Str
  | .ok s => s
  | .error _ => []

/-- A quoted 129-character rendering whose wrapped body packs two
63-character words at the wrap width computed for the key `help`. -/
def c3val : Str :=
  '\'' :: (List.replicate 63 'a') ++ ' ' :: (List.replicate 63 'b') ++ ['\'']

def demoParams : List Param :=
  [⟨"ab".data, .positionalOnly, none, .empty⟩,
   ⟨"a".data, .positionalOrKeyword, none, .empty⟩,
   ⟨"apple".data, .keywordOnly, some (.int 3), .empty⟩,
   ⟨"b".data, .keywordOnly, none, .empty⟩,
   ⟨"_p".data, .keywordOnly, none, .empty⟩,
   ⟨"args".data, .varPositional, none, .empty⟩]

def c8demoDoc : Str := ":param a: ca\n:param b: cb".data

def c8initDoc : Str := ":param a: ia".data

def c8demoObj : PyCallable := ⟨some c8demoDoc, true, some (some c8initDoc)⟩

def demoEnum : PyEnum := ⟨"Color".data, ["RED".data, "GREEN".data, "BLUE".data]⟩

/-! ### Dictionary lemmas -/

theorem dictGet_dictSet (m : List (Str × Str)) (k v k' : Str) :
    dictGet (dictSet m k v) k' = if k' = k then some v else dictGet m k' := by
  induction m with
  | nil =>
    by_cases h : k' = k
    · simp [dictSet, dictGet, h]
    · have h' : ¬ k = k' := fun hh => h hh.symm
      simp [dictSet, dictGet, h, h']
  | cons e t ih =>
    obtain ⟨ek, ev⟩ := e
    by_cases h1 : ek = k
    · subst h1
      by_cases h2 : k' = ek
      · simp [dictSet, dictGet, h2]
      · have h2' : ¬ ek = k' := fun hh => h2 hh.symm
        simp [dictSet, dictGet, h2, h2']
    · by_cases h2 : k' = ek
      · subst h2
        simp [dictSet, dictGet, h1]
      · have h2' : ¬ ek = k' := fun hh => h2 hh.symm
        simp [dictSet, dictGet, h1, h2, h2', ih]

theorem mem_dictKeys_dictSet (m : List (Str × Str)) (k v k' : Str) :
    k' ∈ dictKeys (dictSet m k v) ↔ k' = k ∨ k' ∈ dictKeys m := by
  induction m with
  | nil => simp [dictSet, dictKeys]
  | cons e t ih =>
    obtain ⟨ek, ev⟩ := e
    by_cases h1 : ek = k
    · subst h1
      simp only [dictSet, if_pos rfl, dictKeys, List.mem_cons]
      tauto
    · simp only [dictSet, if_neg h1, dictKeys, List.mem_cons, ih]
      tauto

theorem nodup_dictKeys_dictSet (m : List (Str × Str)) (k v : Str)
    (h : (dictKeys m).Nodup) : (dictKeys (dictSet m k v)).Nodup := by
  induction m with
  | nil => simp [dictSet, dictKeys]
  | cons e t ih =>
    obtain ⟨ek, ev⟩ := e
    rw [dictKeys, List.nodup_cons] at h
    by_cases h1 : ek = k
    · subst h1
      simp only [dictSet, if_pos rfl, dictKeys, List.nodup_cons]
      exact h
    · simp only [dictSet, if_neg h1, dictKeys, List.nodup_cons]
      refine ⟨?_, ih h.2⟩
      intro hmem
      rcases (mem_dictKeys_dictSet t k v ek).mp hmem with h2 | h2
      · exact h1 h2
      · exact h.1 h2

theorem dictGet_eq_none_of_not_mem (m : List (Str × Str)) (k : Str)
    (h : k ∉ dictKeys m) : dictGet m k = none := by
  induction m with
  | nil => simp [dictGet]
  | cons e t ih =>
    obtain ⟨ek, ev⟩ := e
    rw [dictKeys, List.mem_cons] at h
    push_neg at h
    have h1 : ¬ ek = k := fun hh => h.1 hh.symm
    simp [dictGet, h1, ih h.2]

theorem dictGet_isSome_of_mem (m : List (Str × Str)) (k : Str)
    (h : k ∈ dictKeys m) : ∃ v, dictGet m k = some v := by
  induction m with
  | nil => simp [dictKeys] at h
  | cons e t ih =>
    obtain ⟨ek, ev⟩ := e
    by_cases h1 : ek = k
    · subst h1
      exact ⟨ev, by simp [dictGet]⟩
    · rw [dictKeys, List.mem_cons] at h
      rcases h with h | h
      · exact absurd h.symm h1
      · obtain ⟨v, hv⟩ := ih h
        exact ⟨v, by simp [dictGet, h1, hv]⟩

theorem dictGet_dictUpdate (a b : List (Str × Str)) (k : Str)
    (hb : (dictKeys b).Nodup) :
    dictGet (dictUpdate a b) k = (dictGet b k).or (dictGet a k) := by
  induction b generalizing a with
  | nil => simp [dictUpdate, dictGet, Option.or]
  | cons e t ih =>
    obtain ⟨ek, ev⟩ := e
    rw [dictKeys, List.nodup_cons] at hb
    have step : dictUpdate a ((ek, ev) :: t) = dictUpdate (dictSet a ek ev) t := by
      simp [dictUpdate]
    rw [step, ih _ hb.2]
    by_cases h1 : ek = k
    · subst h1
      rw [dictGet_eq_none_of_not_mem t ek hb.1]
      simp [dictGet, dictGet_dictSet, Option.or]
    · have h2 : ¬ k = ek := fun hh => h1 hh.symm
      simp [dictGet, h1, h2, dictGet_dictSet, Option.or]

/-! ### Key uniqueness along the docstring scan -/

theorem nodup_saveCurrent (st : HelpState) (h : (dictKeys st.result).Nodup) :
    (dictKeys (saveCurrent st)).Nodup := by
  unfold saveCurrent
  split
  · exact nodup_dictKeys_dictSet _ _ _ h
  · exact h

theorem nodup_helpLineStep (st : HelpState) (raw : Str)
    (h : (dictKeys st.result).Nodup) :
    (dictKeys (helpLineStep st raw).result).Nodup := by
  unfold helpLineStep
  split
  · exact nodup_saveCurrent st h
  · split
    · exact nodup_saveCurrent st h
    · split
      · exact h
      · exact h

theorem nodup_foldl_helpLineStep (lines : List Str) (st : HelpState)
    (h : (dictKeys st.result).Nodup) :
    (dictKeys (lines.foldl helpLineStep st).result).Nodup := by
  induction lines generalizing st with
  | nil => exact h
  | cons l t ih => exact ih _ (nodup_helpLineStep st l h)

theorem nodup_runLines (s : Str) : (dictKeys (runLines s)).Nodup := by
  unfold runLines
  exact nodup_saveCurrent _ (nodup_foldl_helpLineStep _ _ (by simp [dictKeys]))

theorem nodup_docHelp (d : Option Str) : (dictKeys (docHelp d)).Nodup := by
  unfold docHelp
  match d with
  | none => simp [dictKeys]
  | some s =>
    by_cases hs : s = []
    · simp [hs, dictKeys]
    · simpa [hs] using nodup_runLines s

/-! ### Sorting lemmas (stability and sortedness of the length sort) -/

theorem insertByLen_perm (p : Param) (l : List Param) :
    List.Perm (insertByLen p l) (p :: l) := by
  induction l with
  | nil => rfl
  | cons q qs ih =>
    by_cases h : q.name.length < p.name.length
    · have h1 : insertByLen p (q :: qs) = q :: insertByLen p qs := by
        simp [insertByLen, h]
      rw [h1]
      exact List.Perm.trans (List.Perm.cons q ih) (List.Perm.swap p q qs)
    · simp [insertByLen, h]

theorem sortByLen_perm (l : List Param) : List.Perm (sortByLen l) l := by
  induction l with
  | nil => rfl
  | cons p ps ih =>
    exact List.Perm.trans (insertByLen_perm p (sortByLen ps)) (List.Perm.cons p ih)

theorem mem_insertByLen {x p : Param} {l : List Param} :
    x ∈ insertByLen p l ↔ x = p ∨ x ∈ l := by
  rw [(insertByLen_perm p l).mem_iff, List.mem_cons]

theorem sorted_insertByLen (p : Param) (l : List Param)
    (h : l.Pairwise (fun a b => a.name.length ≤ b.name.length)) :
    (insertByLen p l).Pairwise (fun a b => a.name.length ≤ b.name.length) := by
  induction l with
  | nil => simp [insertByLen]
  | cons q qs ih =>
    rw [List.pairwise_cons] at h
    by_cases hlt : q.name.length < p.name.length
    · have hq : (insertByLen p (q :: qs)) = q :: insertByLen p qs := by
        simp [insertByLen, hlt]
      rw [hq, List.pairwise_cons]
      refine ⟨?_, ih h.2⟩
      intro x hx
      rcases mem_insertByLen.mp hx with rfl | hx
      · exact Nat.le_of_lt hlt
      · exact h.1 x hx
    · have hq : (insertByLen p (q :: qs)) = p :: q :: qs := by
        simp [insertByLen, hlt]
      rw [hq, List.pairwise_cons]
      constructor
      · intro x hx
        rcases List.mem_cons.mp hx with rfl | hx
        · exact Nat.le_of_not_lt hlt
        · exact Nat.le_trans (Nat.le_of_not_lt hlt) (h.1 x hx)
      · exact List.pairwise_cons.mpr h

theorem sorted_sortByLen (l : List Param) :
    (sortByLen l).Pairwise (fun a b => a.name.length ≤ b.name.length) := by
  induction l with
  | nil => simp [sortByLen]
  | cons p ps ih => exact sorted_insertByLen p (sortByLen ps) ih

theorem filterLen_insertByLen (p : Param) (l : List Param) (n : Nat) :
    (insertByLen p l).filter (fun q => q.name.length == n)
      = if p.name.length = n then
          p :: l.filter (fun q => q.name.length == n)
        else l.filter (fun q => q.name.length == n) := by
  induction l with
  | nil =>
    by_cases h : p.name.length = n <;>
      simp [insertByLen, List.filter_cons, beq_iff_eq, h]
  | cons q qs ih =>
    by_cases hlt : q.name.length < p.name.length
    · have hins : insertByLen p (q :: qs) = q :: insertByLen p qs := by
        simp [insertByLen, hlt]
      by_cases hq : q.name.length = n
      · have hp : ¬ p.name.length = n := by omega
        simp [hins, List.filter_cons, hq, hp, ih]
      · by_cases hp : p.name.length = n <;> simp [hins, List.filter_cons, hq, hp, ih]
    · have hins : insertByLen p (q :: qs) = p :: q :: qs := by
        simp [insertByLen, hlt]
      by_cases hp : p.name.length = n <;> simp [hins, List.filter_cons, hp]

theorem sortByLen_stable (l : List Param) (n : Nat) :
    (sortByLen l).filter (fun q => q.name.length == n)
      = l.filter (fun q => q.name.length == n) := by
  induction l with
  | nil => rfl
  | cons p ps ih =>
    have : sortByLen (p :: ps) = insertByLen p (sortByLen ps) := rfl
    rw [this, filterLen_insertByLen]
    by_cases hp : p.name.length = n <;> simp [List.filter_cons, hp, ih]

/-! ### Assignment lemmas -/

theorem setNames_claimed_mono (S : List Str) (p : Param) (x : Str)
    (hx : x ∈ S) : x ∈ (setNames S p).2 := by
  unfold setNames
  split
  · exact hx
  · split
    · exact List.mem_cons_of_mem _ hx
    · split
      · exact hx
      · exact List.mem_cons_of_mem _ hx

theorem assignNames_map_fst (l : List Param) (S : List Str) :
    (assignNames l S).map Prod.fst = l.map Param.name := by
  induction l generalizing S with
  | nil => rfl
  | cons p ps ih => simp [assignNames, ih]

theorem lookupFlags_mem (asn : List (Str × List Str)) (n : Str)
    (h : ∃ e ∈ asn, e.1 = n) : (n, lookupFlags asn n) ∈ asn := by
  induction asn with
  | nil => simp at h
  | cons e t ih =>
    obtain ⟨ek, ev⟩ := e
    by_cases h1 : ek = n
    · subst h1
      simp [lookupFlags, List.find?]
    · have h2 : (ek == n) = false := by simp [h1]
      have ht : ∃ e ∈ t, e.1 = n := by
        obtain ⟨e, he, hen⟩ := h
        rcases List.mem_cons.mp he with rfl | he
        · exact absurd hen h1
        · exact ⟨e, he, hen⟩
      have := ih ht
      rw [lookupFlags, List.find?] at *
      simp only [h2] at *
      exact List.mem_cons_of_mem _ this

theorem lookup_assign (pre suf : List Param) (p : Param) (S : List Str)
    (hpre : ∀ q ∈ pre, q.name ≠ p.name) :
    lookupFlags (assignNames (pre ++ p :: suf) S) p.name
      = (setNames (claimedAfter pre S) p).1 := by
  induction pre generalizing S with
  | nil =>
    simp [assignNames, lookupFlags, List.find?, claimedAfter]
  | cons q qs ih =>
    have hq : q.name ≠ p.name := hpre q (List.mem_cons_self q qs)
    have hqs : ∀ r ∈ qs, r.name ≠ p.name := fun r hr =>
      hpre r (List.mem_cons_of_mem q hr)
    have hbeq : (q.name == p.name) = false := by simp [hq]
    calc lookupFlags (assignNames ((q :: qs) ++ p :: suf) S) p.name
        = lookupFlags (assignNames (qs ++ p :: suf) (setNames S q).2) p.name := by
          rw [List.cons_append, assignNames, lookupFlags, List.find?]
          simp only [hbeq]
          rfl
      _ = (setNames (claimedAfter qs (setNames S q).2) p).1 := ih _ hqs
      _ = (setNames (claimedAfter (q :: qs) S) p).1 := rfl

theorem hsing_step (p : Param) (ps : List Param) (S : List Str)
    (hd : ∀ b ∈ ps, p.name ≠ b.name)
    (hs : ∀ b ∈ ps, p.name.length ≤ b.name.length)
    (hpne : p.name ≠ [])
    (ht : ∀ q ∈ ps, q.kind ≠ ParamKind.positionalOnly → q.name.length = 1 →
      q.name ∉ S) :
    ∀ q ∈ ps, q.kind ≠ ParamKind.positionalOnly → q.name.length = 1 →
      q.name ∉ (setNames S p).2 := by
  intro q hq hk hl
  by_cases hpos : p.kind = ParamKind.positionalOnly
  · simp only [setNames, if_pos hpos]
    exact ht q hq hk hl
  · by_cases hlen : p.name.length = 1
    · simp only [setNames, if_neg hpos, if_pos hlen]
      rw [List.mem_cons]
      push_neg
      exact ⟨fun h => hd q hq h.symm, ht q hq hk hl⟩
    · exfalso
      have h1 : 0 < p.name.length := List.length_pos.mpr hpne
      have h2 := hs q hq
      omega

theorem assign_shapes (l : List Param) (S : List Str)
    (hdist : l.Pairwise (fun a b => a.name ≠ b.name))
    (hsort : l.Pairwise (fun a b => a.name.length ≤ b.name.length))
    (hgood : ∀ p ∈ l, p.name ≠ [] ∧ p.name.head? ≠ some '-')
    (hsing : ∀ p ∈ l, p.kind ≠ ParamKind.positionalOnly → p.name.length = 1 →
      p.name ∉ S) :
    ∀ e ∈ assignNames l S,
      (e.1 ≠ [] ∧ e.1.head? ≠ some '-' ∧ ∃ q ∈ l, q.name = e.1)
      ∧ ∀ f ∈ e.2,
          f = e.1 ∨ f = '-' :: '-' :: e.1
            ∨ (f = '-' :: e.1.take 1 ∧ e.1.take 1 ∉ S) := by
  induction l generalizing S with
  | nil => intro e he; simp [assignNames] at he
  | cons p ps ih =>
    rw [List.pairwise_cons] at hdist hsort
    have hgp := hgood p (List.mem_cons_self p ps)
    have hgt : ∀ q ∈ ps, q.name ≠ [] ∧ q.name.head? ≠ some '-' :=
      fun q hq => hgood q (List.mem_cons_of_mem p hq)
    have hsingt := hsing_step p ps S hdist.1 hsort.1 hgp.1
      (fun q hq => hsing q (List.mem_cons_of_mem p hq))
    intro e he
    rw [assignNames, List.mem_cons] at he
    rcases he with rfl | he
    · refine ⟨⟨hgp.1, hgp.2, p, List.mem_cons_self p ps, rfl⟩, ?_⟩
      intro f hf
      by_cases hpos : p.kind = ParamKind.positionalOnly
      · rw [show (setNames S p).1 = [p.name] by simp [setNames, hpos]] at hf
        rw [List.mem_singleton] at hf
        exact Or.inl hf
      · by_cases hlen : p.name.length = 1
        · rw [show (setNames S p).1 = ['-' :: p.name] by
            simp [setNames, hpos, hlen]] at hf
          rw [List.mem_singleton] at hf
          obtain ⟨c0, hc0⟩ := List.length_eq_one.mp hlen
          have htake : p.name.take 1 = p.name := by simp [hc0]
          refine Or.inr (Or.inr ⟨?_, ?_⟩)
          · rw [hf, htake]
          · rw [htake]
            exact hsing p (List.mem_cons_self p ps) hpos hlen
        · by_cases hcl : p.name.take 1 ∈ S
          · rw [show (setNames S p).1 = ['-' :: '-' :: p.name] by
              simp [setNames, hpos, hlen, hcl]] at hf
            rw [List.mem_singleton] at hf
            exact Or.inr (Or.inl hf)
          · rw [show (setNames S p).1 = ['-' :: p.name.take 1, '-' :: '-' :: p.name] by
              simp [setNames, hpos, hlen, hcl]] at hf
            rcases List.mem_cons.mp hf with rfl | hf
            · exact Or.inr (Or.inr ⟨rfl, hcl⟩)
            · rw [List.mem_singleton] at hf
              exact Or.inr (Or.inl hf)
    · have := ih (setNames S p).2 hdist.2 hsort.2 hgt hsingt e he
      obtain ⟨⟨h1, h2, q, hq, hqe⟩, hsh⟩ := this
      refine ⟨⟨h1, h2, q, List.mem_cons_of_mem p hq, hqe⟩, ?_⟩
      intro f hf
      rcases hsh f hf with hc | hc | ⟨hc, hns⟩
      · exact Or.inl hc
      · exact Or.inr (Or.inl hc)
      · exact Or.inr (Or.inr ⟨hc,
          fun hmem => hns (setNames_claimed_mono S p _ hmem)⟩)

theorem assign_disjoint (l : List Param) (S : List Str)
    (hdist : l.Pairwise (fun a b => a.name ≠ b.name))
    (hsort : l.Pairwise (fun a b => a.name.length ≤ b.name.length))
    (hgood : ∀ p ∈ l, p.name ≠ [] ∧ p.name.head? ≠ some '-')
    (hsing : ∀ p ∈ l, p.kind ≠ ParamKind.positionalOnly → p.name.length = 1 →
      p.name ∉ S) :
    (assignNames l S).Pairwise (fun a b => ∀ f ∈ a.2, f ∉ b.2) := by
  induction l generalizing S with
  | nil => simp [assignNames]
  | cons p ps ih =>
    rw [List.pairwise_cons] at hdist hsort
    have hgp := hgood p (List.mem_cons_self p ps)
    have hgt : ∀ q ∈ ps, q.name ≠ [] ∧ q.name.head? ≠ some '-' :=
      fun q hq => hgood q (List.mem_cons_of_mem p hq)
    have hsingt := hsing_step p ps S hdist.1 hsort.1 hgp.1
      (fun q hq => hsing q (List.mem_cons_of_mem p hq))
    rw [assignNames, List.pairwise_cons]
    refine ⟨?_, ih (setNames S p).2 hdist.2 hsort.2 hgt hsingt⟩
    intro e he f hf hfe
    obtain ⟨⟨hm1, hm2, q, hq, hqe⟩, hshape⟩ :=
      assign_shapes ps (setNames S p).2 hdist.2 hsort.2 hgt hsingt e he
    have hne : p.name ≠ e.1 := by rw [← hqe]; exact hdist.1 q hq
    obtain ⟨c, t, hct⟩ := List.exists_cons_of_ne_nil hgp.1
    obtain ⟨d, u, hdu⟩ := List.exists_cons_of_ne_nil hm1
    have hcne : c ≠ '-' := fun h => hgp.2 (by simp [hct, h])
    have hdne : d ≠ '-' := fun h => hm2 (by simp [hdu, h])
    have htop : e.1.take 1 = [d] := by simp [hdu]
    rcases hshape f hfe with hfm | hfm | ⟨hfm, hnS⟩
    · -- f is the bare name of the tail entry
      subst hfm
      by_cases hpos : p.kind = ParamKind.positionalOnly
      · rw [show (setNames S p).1 = [p.name] by simp [setNames, hpos],
          List.mem_singleton] at hf
        exact hne hf.symm
      · by_cases hlen : p.name.length = 1
        · rw [show (setNames S p).1 = ['-' :: p.name] by
            simp [setNames, hpos, hlen], List.mem_singleton] at hf
          rw [hdu] at hf
          simp [List.cons.injEq] at hf
          exact hdne hf.1
        · by_cases hcl : p.name.take 1 ∈ S
          · rw [show (setNames S p).1 = ['-' :: '-' :: p.name] by
              simp [setNames, hpos, hlen, hcl], List.mem_singleton] at hf
            rw [hdu] at hf
            simp [List.cons.injEq] at hf
            exact hdne hf.1
          · rw [show (setNames S p).1
                = ['-' :: p.name.take 1, '-' :: '-' :: p.name] by
              simp [setNames, hpos, hlen, hcl]] at hf
            rcases List.mem_cons.mp hf with hf | hf
            · rw [hdu] at hf
              simp [List.cons.injEq] at hf
              exact hdne hf.1
            · rw [List.mem_singleton] at hf
              rw [hdu] at hf
              simp [List.cons.injEq] at hf
              exact hdne hf.1
    · -- f is the long flag of the tail entry
      subst hfm
      by_cases hpos : p.kind = ParamKind.positionalOnly
      · rw [show (setNames S p).1 = [p.name] by simp [setNames, hpos],
          List.mem_singleton] at hf
        rw [hct] at hf
        simp [List.cons.injEq] at hf
        exact hcne hf.1.symm
      · by_cases hlen : p.name.length = 1
        · rw [show (setNames S p).1 = ['-' :: p.name] by
            simp [setNames, hpos, hlen], List.mem_singleton] at hf
          obtain ⟨c0, hc0⟩ := List.length_eq_one.mp hlen
          rw [hc0] at hf
          simp [List.cons.injEq] at hf
          exact hm1 hf.2
        · by_cases hcl : p.name.take 1 ∈ S
          · rw [show (setNames S p).1 = ['-' :: '-' :: p.name] by
              simp [setNames, hpos, hlen, hcl], List.mem_singleton] at hf
            simp [List.cons.injEq] at hf
            exact hne hf.symm
          · rw [show (setNames S p).1
                = ['-' :: p.name.take 1, '-' :: '-' :: p.name] by
              simp [setNames, hpos, hlen, hcl]] at hf
            rcases List.mem_cons.mp hf with hf | hf
            · rw [hct] at hf
              simp [List.take, List.cons.injEq] at hf
              exact hcne hf.1.symm
            · rw [List.mem_singleton] at hf
              simp [List.cons.injEq] at hf
              exact hne hf.symm
    · -- f is the short flag of the tail entry; its character is unclaimed
      subst hfm
      rw [htop] at hnS hf
      by_cases hpos : p.kind = ParamKind.positionalOnly
      · rw [show (setNames S p).1 = [p.name] by simp [setNames, hpos],
          List.mem_singleton] at hf
        rw [hct] at hf
        simp [List.cons.injEq] at hf
        exact hcne hf.1.symm
      · by_cases hlen : p.name.length = 1
        · rw [show (setNames S p).1 = ['-' :: p.name] by
            simp [setNames, hpos, hlen], List.mem_singleton] at hf
          -- the unclaimed tail character equals this claimed single-char name
          apply hnS
          rw [show (setNames S p).2 = p.name :: S by simp [setNames, hpos, hlen]]
          have hpd : p.name = [d] := by
            simpa [List.cons.injEq] using hf.symm
          rw [hpd]
          exact List.mem_cons_self _ _
        · by_cases hcl : p.name.take 1 ∈ S
          · rw [show (setNames S p).1 = ['-' :: '-' :: p.name] by
              simp [setNames, hpos, hlen, hcl], List.mem_singleton] at hf
            rw [hct] at hf
            simp [List.cons.injEq] at hf
          · rw [show (setNames S p).1
                = ['-' :: p.name.take 1, '-' :: '-' :: p.name] by
              simp [setNames, hpos, hlen, hcl]] at hf
            rcases List.mem_cons.mp hf with hf | hf
            · -- both short flags carry the same character, but p claimed it
              apply hnS
              rw [show (setNames S p).2 = p.name.take 1 :: S by
                simp [setNames, hpos, hlen, hcl]]
              have hpd : p.name.take 1 = [d] := by
                simpa [List.cons.injEq] using hf.symm
              rw [hpd]
              exact List.mem_cons_self _ _
            · rw [List.mem_singleton] at hf
              rw [hct] at hf
              simp [List.cons.injEq] at hf

/-! ### Claim theorems -/

set_option maxRecDepth 40000

/-- C1: the claim states that for every eligible non-positional-only
parameter the derived specification contains `required` = (parameter has
no default), while positional-only parameters with a default get
`nargs="?"` instead.  The second half holds, but the source never sets
the `required` key: `param_def.py` line 89 reads
`result["required"]: required`, a bare annotation statement rather than
an assignment `=`, a clear slip (the computed `required` value is
otherwise dead).  Evaluating the embedded code at the failing input — a
keyword-only parameter with no default — shows the `required` key
absent. -/
theorem c1_required_key_never_set :
    (asDict ⟨⟨['x'], ParamKind.keywordOnly, none, PyAnn.empty⟩,
        [['-', '-', 'x']], none⟩).required = none
    ∧ (asDict ⟨⟨['x'], ParamKind.positionalOnly, some (Value.int 3),
        PyAnn.empty⟩, [['x']], none⟩).nargs = some ['?']
    ∧ (asDict ⟨⟨['x'], ParamKind.positionalOnly, some (Value.int 3),
        PyAnn.empty⟩, [['x']], none⟩).required = none := by
  refine ⟨rfl, rfl, rfl⟩

/-- C2: the claim states that a blank line commits the accumulated help
and then clears the buffer, so that later non-blank lines cannot extend
the committed entry.  The function `save_current` in the source declares
`curr_name`/`curr_help` `nonlocal` but never resets them, so the buffer
survives the flush: on the docstring `":param x: first\n\nmore"` the
final mapping carries `"first more"` for `x`, not `"first"`. -/
theorem c2_blank_line_buffer_not_cleared :
    dictGet (getHelpDict ⟨some (":param x: first\n\nmore".data), false, none⟩)
        ['x']
      = some ("first more".data)
    ∧ ("first more".data ≠ ("first".data)) := by
  exact ⟨by decide, by decide⟩

/-- C3: the claim states that every physical line of a wrapped
declaration stays within the configured maximum width (72).  The wrap
width `max_width - lead_size - 4` under-counts the 8-space indent plus
quote characters of continuation lines, so for short keys ("help",
"type", "nargs") the emitted lines reach 73-74 characters — contradicting
both the claim and the docstring of the function itself ("properly capped at
`max_width` width").  Evaluating the embedded formatter on the key
`help` and a quoted 129-character value exhibits an over-long line. -/
theorem c3_wrapped_line_exceeds_width :
    exceptErr (strAsArg ("help".data) c3val 72) = false
    ∧ ((splitOnNl (okValue (strAsArg ("help".data) c3val 72))).any
        (fun l => decide (72 < l.length))) = true := by
  exact ⟨by decide, by decide⟩

/-- C4 counterexample: the claim asserts that every value starting and
ending with a matching quote character wraps without error, over all
names and widths.  At the key `help`, quoted value `'abcdef'` and
maximum width 8, the rendering overflows (14 > 8) and the value is a
quoted string, yet the formatter errors: the computed wrap width
`8 - 5 - 4 = -1` is rejected by the text wrapper (`textwrap.wrap`
raises `ValueError` for non-positive widths). -/
theorem c4_quoted_error_counterexample :
    exceptErr (strAsArg ("help".data)
        ('\'' :: ("abcdef".data) ++ ['\'']) 8) = true
    ∧ pyQuoted ('\'' :: ("abcdef".data) ++ ['\'']) = true
    ∧ 8 < ("help".data).length + 1
        + ('\'' :: ("abcdef".data) ++ ['\'']).length + 1 := by
  exact ⟨by decide, by decide, by decide⟩

/-- C4 (amended): the line-wrapping formatter signals an error if and
only if the rendered value exceeds the width threshold and either the
value is not a quoted string — non-empty and ending with the same
(quote) character it starts with; an empty value fails the `value[0]`
lookup itself — or the computed wrap width
`max_width - lead_size - 4` is not positive, in which case the
underlying text wrapper rejects even a quoted value.  Every quoted
value with a positive computed wrap width produces wrapped output
without error. -/
theorem c4_error_iff_amended (name value : Str) (w : Nat) :
    exceptErr (strAsArg name value w) = true ↔
      (w < name.length + 1 + value.length + 1 ∧
        (pyQuoted value = false
          ∨ w ≤ name.length + 1 + (4 - name.length) + 4)) := by
  by_cases hov : w < name.length + 1 + value.length + 1
  · rcases value with _ | ⟨q, rest⟩
    · simp only [List.length_nil] at hov
      simp [strAsArg, exceptErr, pyQuoted, hov]
    · simp only [List.length_cons] at hov
      by_cases hq : (q :: rest).getLast? = some q
      · by_cases hwn : w ≤ name.length + 1 + (4 - name.length) + 4
        · have hpy : pyWrap rest.dropLast
              ((w : Int) - ((name.length : Int) + 1 + ((4 - name.length : Nat) : Int)) - 4)
              = .error ("invalid width (must be > 0)".data) := by
            unfold pyWrap
            rw [if_pos (by omega)]
          simp [strAsArg, exceptErr, pyQuoted, hov, hq, hpy, hwn]
        · have hpy : pyWrap rest.dropLast
              ((w : Int) - ((name.length : Int) + 1 + ((4 - name.length : Nat) : Int)) - 4)
              = .ok (match splitWs rest.dropLast [] with
                  | [] => []
                  | word :: ws =>
                    greedyAux
                      ((w : Int)
                        - ((name.length : Int) + 1 + ((4 - name.length : Nat) : Int))
                        - 4).toNat
                      ws word) := by
            unfold pyWrap
            rw [if_neg (by omega)]
            cases splitWs rest.dropLast [] <;> rfl
          simp [strAsArg, exceptErr, pyQuoted, hov, hq, hpy, hwn]
      · simp [strAsArg, exceptErr, pyQuoted, hov, hq]
  · simp [strAsArg, exceptErr, pyQuoted, hov]

/-- C7: for an enumeration-annotated parameter the choices are exactly
the members of the enum in definition order, each wrapped so that it renders
as `TypeName.MEMBER`; the coercion is the lookup-by-name `EnumType`
wrapper rendering as a `getattr` lambda; and a declared default that is
a member of the enumeration is re-wrapped the same way. -/
theorem c7_enum_mapping (e : PyEnum) (p : Param) (fs : List Str)
    (hs : Option Str) (hann : p.ann = PyAnn.enumClass e) :
    (asDict ⟨p, fs, hs⟩).choices
        = some (e.memberNames.map fun m =>
            Value.enumWrapped (Value.enumMember e.typeName m))
    ∧ (∀ m, reprValue (Value.enumWrapped (Value.enumMember e.typeName m))
        = e.typeName ++ '.' :: m)
    ∧ (asDict ⟨p, fs, hs⟩).type = some (TypeV.enumLookup e)
    ∧ TypeV.pyName (TypeV.enumLookup e)
        = ("lambda value: getattr(".data) ++ e.typeName ++ (", value)".data)
    ∧ (∀ m, m ∈ e.memberNames →
        p.default = some (Value.enumMember e.typeName m) →
        (asDict ⟨p, fs, hs⟩).default
          = some (Value.enumWrapped (Value.enumMember e.typeName m))) := by
  obtain ⟨nm, kd, df, an⟩ := p
  cases hann
  refine ⟨?_, fun m => rfl, ?_, rfl, fun m hm hd => ?_⟩
  · cases kd <;> rcases df with _ | v <;> simp [asDict, handleAnn, ArgDict.init]
  · cases kd <;> rcases df with _ | v <;> simp [asDict, handleAnn, ArgDict.init]
  · simp only [Param.default] at hd
    cases kd <;> simp [asDict, handleAnn, ArgDict.init, hd]

/-- C9: a parameter annotated with `bool` becomes a boolean flag: the
dict records no coercion type (and no choices), a `store_true` action
when the default is `False` or absent, and `store_false` exactly when
the default is `True`. -/
theorem c9_bool_flag (p : Param) (fs : List Str) (hs : Option Str)
    (hann : p.ann = PyAnn.plainType PyType.bool) :
    (asDict ⟨p, fs, hs⟩).type = none
    ∧ (asDict ⟨p, fs, hs⟩).choices = none
    ∧ ((p.default = none ∨ p.default = some (Value.bool false)) →
        (asDict ⟨p, fs, hs⟩).action = some ("store_true".data))
    ∧ ((asDict ⟨p, fs, hs⟩).action = some ("store_false".data) ↔
        p.default = some (Value.bool true)) := by
  obtain ⟨nm, kd, df, an⟩ := p
  cases hann
  have hact : (asDict ⟨⟨nm, kd, df, PyAnn.plainType PyType.bool⟩, fs, hs⟩).action
      = some (if df = some (Value.bool true)
          then ("store_false".data) else ("store_true".data)) := by
    cases kd <;> rcases df with _ | v <;> simp [asDict, handleAnn, ArgDict.init]
  refine ⟨?_, ?_, ?_, ?_⟩
  · cases kd <;> rcases df with _ | v <;> simp [asDict, handleAnn, ArgDict.init]
  · cases kd <;> rcases df with _ | v <;> simp [asDict, handleAnn, ArgDict.init]
  · intro hd
    simp only [Param.default] at hd
    rcases hd with hd | hd <;> rw [hact, hd] <;> simp
  · rw [hact]
    simp only [Param.default]
    by_cases hdf : df = some (Value.bool true)
    · simp [hdf]
    · simp [hdf]

/-- C10: `save_current` commits an entry only when both the current name
and the accumulated help are non-empty, so a `:param x:` marker with
nothing after it and no continuation lines leaves no entry in the help
mapping; and a parameter whose help lookup produced nothing resolves to
the empty string (never an omitted or null help) in the derived
specification. -/
theorem c10_empty_help_omitted :
    (∀ st : HelpState, st.currName = [] ∨ st.currHelp = [] →
        saveCurrent st = st.result)
    ∧ getHelpDict ⟨some (":param x:".data), false, none⟩ = []
    ∧ (∀ pd : ParamDef, pd.help_str = none → (asDict pd).help = []) := by
  refine ⟨?_, by decide, ?_⟩
  · intro st h
    unfold saveCurrent
    rw [if_neg]
    rintro ⟨h1, h2⟩
    rcases h with h | h
    · exact h1 h
    · exact h2 h
  · intro pd h
    simp [asDict, ArgDict.init, h]

/-- C8 counterexample: the claim quantifies over every inspected class,
but the guard `if not obj.__doc__: return result` fires before the class
branch, so a class with no docstring of its own yields an empty mapping
even though layering in the constructor help (as the claim describes)
would yield the constructor entry. -/
theorem c8_missing_class_docstring_skips_init :
    getHelpDict ⟨none, true, some (some (":param x: hi".data))⟩ = []
    ∧ dictUpdate [] (docHelp (some (":param x: hi".data)))
        = [(['x'], "hi".data)] := by
  exact ⟨rfl, by decide⟩

/-- C8 (amended): for a class whose own docstring is present and
non-empty, the help mapping is the class-docstring help updated with the
help dictionary of the constructor, so the constructor entry wins for every
key it contains; a class whose docstring is absent or empty yields an
empty mapping without consulting the constructor, and a class without a
reachable `__init__` keeps just its own docstring help. -/
theorem c8_class_help_merge (obj : PyCallable) (s : Str)
    (hc : obj.isClass = true) (hd : obj.doc = some s) (hne : s ≠ []) :
    (∀ d, obj.initDoc = some d →
        getHelpDict obj = dictUpdate (runLines s) (docHelp d))
    ∧ (obj.initDoc = none → getHelpDict obj = runLines s)
    ∧ (∀ d k, obj.initDoc = some d → k ∈ dictKeys (docHelp d) →
        dictGet (getHelpDict obj) k = dictGet (docHelp d) k)
    ∧ (∀ o : PyCallable, o.isClass = true → (o.doc = none ∨ o.doc = some []) →
        getHelpDict o = []) := by
  refine ⟨?_, ?_, ?_, ?_⟩
  · intro d hinit
    simp [getHelpDict, hd, hne, hc, hinit]
  · intro hinit
    simp [getHelpDict, hd, hne, hc, hinit]
  · intro d k hinit hk
    have h1 : getHelpDict obj = dictUpdate (runLines s) (docHelp d) := by
      simp [getHelpDict, hd, hne, hc, hinit]
    rw [h1, dictGet_dictUpdate _ _ _ (nodup_docHelp d)]
    obtain ⟨v, hv⟩ := dictGet_isSome_of_mem _ _ hk
    rw [hv]
    rfl
  · intro o ho hdoc
    rcases hdoc with h | h <;> simp [getHelpDict, h]

theorem c8_witness :
    getHelpDict c8demoObj = dictUpdate (runLines c8demoDoc) (docHelp (some c8initDoc))
    ∧ dictGet (getHelpDict c8demoObj) ['a'] = dictGet (docHelp (some c8initDoc)) ['a'] := by
  refine ⟨(c8_class_help_merge c8demoObj c8demoDoc rfl rfl (by decide)).1 _ rfl,
    (c8_class_help_merge c8demoObj c8demoDoc rfl rfl (by decide)).2.2.1 _ _ rfl (by decide)⟩

theorem c7_witness :
    (asDict ⟨⟨['c'], ParamKind.keywordOnly,
        some (Value.enumMember ("Color".data) ("RED".data)),
        PyAnn.enumClass demoEnum⟩, [['-', 'c']], none⟩).choices
      = some (demoEnum.memberNames.map fun m =>
          Value.enumWrapped (Value.enumMember demoEnum.typeName m))
    ∧ (asDict ⟨⟨['c'], ParamKind.keywordOnly,
        some (Value.enumMember ("Color".data) ("RED".data)),
        PyAnn.enumClass demoEnum⟩, [['-', 'c']], none⟩).default
      = some (Value.enumWrapped
          (Value.enumMember ("Color".data) ("RED".data))) := by
  refine ⟨(c7_enum_mapping demoEnum _ _ _ rfl).1, ?_⟩
  exact (c7_enum_mapping demoEnum _ _ _ rfl).2.2.2.2 ("RED".data) (by decide) rfl

theorem c9_witness :
    (asDict ⟨⟨['v'], ParamKind.keywordOnly, some (Value.bool true),
        PyAnn.plainType PyType.bool⟩, [['-', 'v']], none⟩).action
      = some ("store_false".data)
    ∧ (asDict ⟨⟨['w'], ParamKind.keywordOnly, none,
        PyAnn.plainType PyType.bool⟩, [['-', 'w']], none⟩).action
      = some ("store_true".data) := by
  refine ⟨(c9_bool_flag _ _ _ rfl).2.2.2.mpr rfl, ?_⟩
  exact (c9_bool_flag _ _ _ rfl).2.2.1 (Or.inl rfl)

theorem c10_witness :
    saveCurrent ⟨[], ['x'], []⟩ = []
    ∧ (asDict ⟨⟨['x'], ParamKind.keywordOnly, none, PyAnn.empty⟩,
        [], none⟩).help = [] := by
  refine ⟨c10_empty_help_omitted.1 _ (Or.inr rfl), ?_⟩
  exact c10_empty_help_omitted.2.2 _ rfl

/-- C5: over a parameter list with pairwise-distinct, non-empty names
(identifiers, so never starting with a dash — both guaranteed for real
Python signatures), no two entries of the generated argument list share
any flag token: bare positional names, short `-c` forms and long
`--name` forms are all pairwise distinct across the whole list. -/
theorem c5_flag_tokens_pairwise_distinct (sp : Bool) (params : List Param)
    (helps : List (Str × Str))
    (hgood : ∀ p ∈ params, p.name ≠ [] ∧ p.name.head? ≠ some '-')
    (hdist : params.Pairwise (fun a b => a.name ≠ b.name)) :
    (asList sp params helps).Pairwise
      (fun a b => ∀ f ∈ a.names, f ∉ b.names) := by
  have hd1 : (params.filter (isEligible sp)).Pairwise
      (fun a b => a.name ≠ b.name) :=
    List.Pairwise.sublist (List.filter_sublist params) hdist
  have hg1 : ∀ p ∈ params.filter (isEligible sp),
      p.name ≠ [] ∧ p.name.head? ≠ some '-' :=
    fun p hp => hgood p (List.mem_filter.mp hp).1
  have hperm := sortByLen_perm (params.filter (isEligible sp))
  have hd2 : (sortByLen (params.filter (isEligible sp))).Pairwise
      (fun a b => a.name ≠ b.name) :=
    (List.Perm.pairwise_iff (fun h => h.symm) hperm).mpr hd1
  have hg2 : ∀ p ∈ sortByLen (params.filter (isEligible sp)),
      p.name ≠ [] ∧ p.name.head? ≠ some '-' :=
    fun p hp => hg1 p (hperm.mem_iff.mp hp)
  have hdisj := assign_disjoint (sortByLen (params.filter (isEligible sp))) []
    hd2 (sorted_sortByLen _) hg2 (by intro q hq hk hl; simp)
  have hsymmD : Symmetric (fun x y : Str × List Str => ∀ f ∈ x.2, f ∉ y.2) := by
    intro x y h f hfy hfx
    exact h f hfx hfy
  unfold asList
  rw [List.pairwise_map]
  refine List.Pairwise.imp_of_mem ?_ hd1
  intro a b ha hb hab
  have hmem : ∀ c ∈ params.filter (isEligible sp),
      (c.name, lookupFlags
          (assignNames (sortByLen (params.filter (isEligible sp))) []) c.name)
        ∈ assignNames (sortByLen (params.filter (isEligible sp))) [] := by
    intro c hc
    apply lookupFlags_mem
    have : c.name ∈ (assignNames (sortByLen (params.filter (isEligible sp)))
        []).map Prod.fst := by
      rw [assignNames_map_fst]
      exact List.mem_map.mpr ⟨c, hperm.mem_iff.mpr hc, rfl⟩
    obtain ⟨e, he, hee⟩ := List.mem_map.mp this
    exact ⟨e, he, hee⟩
  have hneq : (a.name, lookupFlags
        (assignNames (sortByLen (params.filter (isEligible sp))) []) a.name)
      ≠ (b.name, lookupFlags
        (assignNames (sortByLen (params.filter (isEligible sp))) []) b.name) := by
    intro h
    exact hab (congrArg Prod.fst h)
  exact List.Pairwise.forall hsymmD hdisj (hmem a ha) (hmem b hb) hneq

theorem c5_witness :
    ((∀ p ∈ demoParams, p.name ≠ [] ∧ p.name.head? ≠ some '-')
      ∧ demoParams.Pairwise (fun a b => a.name ≠ b.name))
    ∧ (asList true demoParams []).Pairwise
        (fun a b => ∀ f ∈ a.names, f ∉ b.names) :=
  ⟨⟨by decide, by decide⟩,
    c5_flag_tokens_pairwise_distinct true demoParams [] (by decide) (by decide)⟩

/-- C6: the flag-naming algorithm.  (a) The generated list carries the
eligible parameters one-to-one in original signature order.  (b) The
processing order is ascending name length, with ties kept in original
order (the sort is stable: filtering each length class preserves the
original sequence).  (c) The stored flags of every parameter are exactly what
`set_names` produces for it at its position in the length-sorted order,
with the claimed-character set accumulated over the sorted prefix, and
(d) `set_names` follows the claimed case rules: positional-only bare
name; single-character name claims its character and gets `-c` only;
longer names get `[-c, --name]` when the first character is unclaimed
(claiming it) and `[--name]` alone otherwise. -/
theorem c6_naming_algorithm (sp : Bool) (params : List Param)
    (helps : List (Str × Str))
    (hdist : params.Pairwise (fun a b => a.name ≠ b.name)) :
    ((asList sp params helps).map ParamDef.param
        = params.filter (isEligible sp))
    ∧ (sortByLen (params.filter (isEligible sp))).Pairwise
        (fun a b => a.name.length ≤ b.name.length)
    ∧ (∀ n, (sortByLen (params.filter (isEligible sp))).filter
          (fun q => q.name.length == n)
        = (params.filter (isEligible sp)).filter
          (fun q => q.name.length == n))
    ∧ (∀ pre p suf,
        sortByLen (params.filter (isEligible sp)) = pre ++ p :: suf →
        lookupFlags
            (assignNames (sortByLen (params.filter (isEligible sp))) [])
            p.name
          = (setNames (claimedAfter pre []) p).1)
    ∧ (∀ pd ∈ asList sp params helps,
        pd.names
          = lookupFlags
              (assignNames (sortByLen (params.filter (isEligible sp))) [])
              pd.param.name)
    ∧ (∀ (S : List Str) (p : Param),
        (p.kind = ParamKind.positionalOnly → setNames S p = ([p.name], S))
        ∧ (p.kind ≠ ParamKind.positionalOnly → p.name.length = 1 →
            setNames S p = (['-' :: p.name], p.name :: S))
        ∧ (p.kind ≠ ParamKind.positionalOnly → p.name.length ≠ 1 →
            p.name.take 1 ∉ S →
            setNames S p
              = (['-' :: p.name.take 1, '-' :: '-' :: p.name],
                  p.name.take 1 :: S))
        ∧ (p.kind ≠ ParamKind.positionalOnly → p.name.length ≠ 1 →
            p.name.take 1 ∈ S →
            setNames S p = (['-' :: '-' :: p.name], S))) := by
  have hd1 : (params.filter (isEligible sp)).Pairwise
      (fun a b => a.name ≠ b.name) :=
    List.Pairwise.sublist (List.filter_sublist params) hdist
  have hperm := sortByLen_perm (params.filter (isEligible sp))
  have hd2 : (sortByLen (params.filter (isEligible sp))).Pairwise
      (fun a b => a.name ≠ b.name) :=
    (List.Perm.pairwise_iff (fun h => h.symm) hperm).mpr hd1
  refine ⟨?_, sorted_sortByLen _, sortByLen_stable _, ?_, ?_, ?_⟩
  · unfold asList
    rw [List.map_map]
    exact List.map_id' _
  · intro pre p suf heq
    have hpre : ∀ q ∈ pre, q.name ≠ p.name := by
      rw [heq] at hd2
      intro q hq
      exact (List.pairwise_append.mp hd2).2.2 q hq p (List.mem_cons_self p suf)
    rw [heq]
    exact lookup_assign pre suf p [] hpre
  · intro pd hpd
    unfold asList at hpd
    obtain ⟨p, hp, hpe⟩ := List.mem_map.mp hpd
    rw [← hpe]
  · intro S p
    refine ⟨?_, ?_, ?_, ?_⟩
    · intro hpos
      simp [setNames, hpos]
    · intro hpos hlen
      simp [setNames, hpos, hlen]
    · intro hpos hlen hcl
      simp [setNames, hpos, hlen, hcl]
    · intro hpos hlen hcl
      simp [setNames, hpos, hlen, hcl]

theorem c6_witness :
    (demoParams.Pairwise (fun a b => a.name ≠ b.name))
    ∧ (asList true demoParams []).map ParamDef.param
        = demoParams.filter (isEligible true) :=
  ⟨by decide, (c6_naming_algorithm true demoParams [] (by decide)).1⟩
